import Mathlib

/-!
Verification of the lineup assignment engine in `src/optimize.py`.

The engine is embedded shallowly: a pandas DataFrame of candidate rows
becomes a `List Candidate` indexed by position (pandas' default
RangeIndex), floating-point scores become rationals, and the external
ILP solve (`pulp` + CBC) — which the source asks to solve the exact
binary assignment program built in `optimize_lineup` — is modelled as a
deterministic exact maximization over the enumeration of all feasible
assignments of the very same constraint system (exact per-slot fill
counts, at most one slot per player, eligibility respected).  The
source never inspects the solver status: when the program is
infeasible no variable extraction produces a starter row and the
function yields no lineup, modelled as `none`.  No error type exists
anywhere in the repository for this engine (no `InfeasibleError`, no
`ValidationError`); the result type is therefore `Option`.
-/

/-- League lineup slot table: source `SLOTS` in `src/optimize.py`. -/
def SLOTS : List (String × Nat) :=
  [("QB", 1), ("RB", 2), ("WR", 2), ("TE", 1), ("FLEX", 1), ("D/ST", 1), ("K", 1)]

/-- Source `FLEX_ELIGIBLE` (defined in `src/optimize.py`; the eligibility
logic itself is in `_eligible_slots`). -/
def FLEX_ELIGIBLE : List String := ["RB", "WR", "TE"]

/-- Source `_eligible_slots`: the slot categories a position may occupy.
Python returns sets; the embedding uses lists (only membership and
emptiness are ever consumed). -/
def _eligible_slots (pos : String) : List String :=
  if pos = "QB" then ["QB"]
  else if pos = "RB" then ["RB", "FLEX"]
  else if pos = "WR" then ["WR", "FLEX"]
  else if pos = "TE" then ["TE", "FLEX"]
  else if pos = "D/ST" ∨ pos = "DST" ∨ pos = "DEF" then ["D/ST"]
  else if pos = "K" then ["K"]
  else []

/-- One raw input row of `pred_df`.  `pred_points` and `uncert` are the
columns read by `optimize_lineup`; a `none` value models a cell that is
missing or that `pd.to_numeric(..., errors="coerce")` turns into NaN
(non-numeric data).  `id` and `name` model the identification columns
of the upstream record; `optimize_lineup` never reads them. -/
structure Candidate where
  id : Option String
  name : Option String
  pos : String
  pred_points : Option ℚ
  uncert : Option ℚ
deriving DecidableEq

/-- A row of the working table `df` after the "safety fills": numeric
columns coerced with defaults, position synonyms collapsed. -/
structure NRow where
  idx : Nat
  id : Option String
  name : Option String
  pos : String
  pred_points : ℚ
  uncert : ℚ
deriving DecidableEq

/-- A starter row: a normalized row plus the slot it occupies
(`row["slot"] = s` in the source). -/
structure StarterRow where
  idx : Nat
  id : Option String
  name : Option String
  pos : String
  pred_points : ℚ
  uncert : ℚ
  slot : String
deriving DecidableEq

/-- Source `df["pos"].replace({"DST": "D/ST", "DEF": "D/ST"})`. -/
def normPos (p : String) : String := if p = "DST" ∨ p = "DEF" then "D/ST" else p

/-- The per-row effect of the source's safety fills:
`pd.to_numeric(df.get("pred_points", 0), errors="coerce").fillna(0.0)` and
`pd.to_numeric(df.get("uncert", 3.0), errors="coerce").fillna(3.0)`,
followed by the position replacement. -/
def normRow (i : Nat) (c : Candidate) : NRow :=
  { idx := i, id := c.id, name := c.name, pos := normPos c.pos,
    pred_points := c.pred_points.getD 0, uncert := c.uncert.getD 3 }

/-- Pair each row with its pandas index (`RangeIndex` starting at `n`). -/
def withIdx : Nat → List Candidate → List (Nat × Candidate)
  | _, [] => []
  | n, c :: cs => (n, c) :: withIdx (n + 1) cs

/-- The working table `df` after normalization, rows tagged with their
index. -/
def nrows (p : List Candidate) : List NRow :=
  (withIdx 0 p).map (fun ic => normRow ic.1 ic.2)

/-- Source `elig_map`: eligibility set of the row at index `i` (empty
when `i` is out of range). -/
def elig_map (p : List Candidate) (i : Nat) : List String :=
  match (nrows p)[i]? with
  | some r => _eligible_slots r.pos
  | none => []

/-- Source `valid_idx`: indices whose eligibility set is non-empty; rows
with no eligible slots are pruned from the solve. -/
def valid_idx (p : List Candidate) : List Nat :=
  (List.range p.length).filter (fun i => decide (elig_map p i ≠ []))

/-- Source `adj`: the risk-adjusted projection
`pred_points - 0.15 * uncert` of the row at index `i`. -/
def adj (p : List Candidate) (i : Nat) : ℚ :=
  match (nrows p)[i]? with
  | some r => r.pred_points - 0.15 * r.uncert
  | none => 0

/-- Total objective of an assignment, as the source's
`lpSum(adj[i] * y[i, s])` evaluates on the selected pairs. -/
def objective (p : List Candidate) (a : List (Nat × String)) : ℚ :=
  (a.map (fun pr => adj p pr.1)).sum

/-- The slot categories expanded to one entry per required fill
(`SLOTS` with multiplicities): QB, RB, RB, WR, WR, TE, FLEX, D/ST, K. -/
def slotInstances : List String := SLOTS.flatMap (fun sc => List.replicate sc.2 sc.1)

/-- All assignments satisfying the source's ILP constraints: walking the
slot instances in order, pick for each an eligible, still-available
player index.  This enumerates exactly the feasible points of the
binary program `optimize_lineup` hands to the solver. -/
def assignAux (elig : Nat → List String) :
    List String → List Nat → List (List (Nat × String))
  | [], _ => [[]]
  | s :: rest, avail =>
    (avail.filter (fun i => decide (s ∈ elig i))).flatMap
      (fun i => (assignAux elig rest (avail.erase i)).map (fun a => (i, s) :: a))

/-- Deterministic exact maximization: keep the first element of maximal
value.  This models the CBC solve: an exact solver that, run twice on
the same instance, returns the same optimal point. -/
def pickBest {α : Type} (f : α → ℚ) : List α → Option α
  | [] => none
  | x :: xs => some (xs.foldl (fun b y => if f b < f y then y else b) x)

/-- The solve step of `optimize_lineup`: an optimal feasible assignment,
or `none` when the program is infeasible. -/
def solveAssign (p : List Candidate) : Option (List (Nat × String)) :=
  pickBest (objective p) (assignAux (elig_map p) slotInstances (valid_idx p))

/-- Source `order`: the fixed slot presentation order. -/
def order : List String := ["QB", "RB", "RB", "WR", "WR", "TE", "FLEX", "D/ST", "K"]

/-- Source `order.index(x) if x in order else 999`. -/
def slot_order (s : String) : Nat := if s ∈ order then order.indexOf s else 999

/-- The comparison realized by
`starters.sort_values(["slot_order", "pred_points"], ascending=[True, False])`:
ascending slot presentation rank, descending projection inside a rank. -/
def startersLE (a b : StarterRow) : Prop :=
  slot_order a.slot < slot_order b.slot ∨
    (slot_order a.slot = slot_order b.slot ∧ b.pred_points ≤ a.pred_points)

instance : DecidableRel startersLE := fun _ _ =>
  inferInstanceAs (Decidable (_ ∨ _))

/-- Descending order on an optional score, missing values last: the
comparison realized by `sort_values("pred_points", ascending=False)`
with pandas' default `na_position="last"`. -/
def optKeyLE : Option ℚ → Option ℚ → Prop
  | some x, some y => y ≤ x
  | some _, none => True
  | none, some _ => False
  | none, none => True

instance : ∀ a b : Option ℚ, Decidable (optKeyLE a b)
  | some x, some y => inferInstanceAs (Decidable (y ≤ x))
  | some _, none => inferInstanceAs (Decidable True)
  | none, some _ => inferInstanceAs (Decidable False)
  | none, none => inferInstanceAs (Decidable True)

/-- Bench ordering: by the raw `pred_points` of the original row,
descending. -/
def benchLE (a b : Nat × Candidate) : Prop :=
  optKeyLE a.2.pred_points b.2.pred_points

instance : DecidableRel benchLE := fun _ _ =>
  inferInstanceAs (Decidable (optKeyLE _ _))

/-- Source `row = df.loc[i].copy(); row["slot"] = s`: a starter row from
the normalized table.  The out-of-range branch is never reached on the
pairs the solve returns. -/
def mkStarter (p : List Candidate) (pr : Nat × String) : StarterRow :=
  match (nrows p)[pr.1]? with
  | some r => { idx := r.idx, id := r.id, name := r.name, pos := r.pos,
                pred_points := r.pred_points, uncert := r.uncert, slot := pr.2 }
  | none => { idx := pr.1, id := none, name := none, pos := "",
              pred_points := 0, uncert := 0, slot := pr.2 }

/-- Source `optimize_lineup`.  On a feasible pool: the starters (rows of
the optimal assignment, slot-annotated, in presentation order) and the
bench (every original row not assigned, by descending raw
`pred_points`).  On an infeasible pool the source checks no solver
status, extracts no starter rows, and produces no lineup (the
subsequent column accesses fail); this is `none`. -/
def optimize_lineup (p : List Candidate) :
    Option (List StarterRow × List (Nat × Candidate)) :=
  match solveAssign p with
  | none => none
  | some a =>
    let started_idx := a.map Prod.fst
    some (List.insertionSort startersLE (a.map (mkStarter p)),
          List.insertionSort benchLE
            ((withIdx 0 p).filter (fun ic => decide (ic.1 ∉ started_idx))))

/-- A legal assignment in the sense of the specification: exact fill
count per slot category, no player in two slots, every pair respecting
the player's eligibility set. -/
def LegalAssign (p : List Candidate) (a : List (Nat × String)) : Prop :=
  (∀ sc ∈ SLOTS, (a.map Prod.snd).count sc.1 = sc.2) ∧
  (a.map Prod.fst).Nodup ∧
  (∀ pr ∈ a, pr.2 ∈ elig_map p pr.1)

instance (p : List Candidate) (a : List (Nat × String)) :
    Decidable (LegalAssign p a) := by
  unfold LegalAssign
  infer_instance

/-- A candidate pool is feasible when some legal assignment exists. -/
def Feasible (p : List Candidate) : Prop := ∃ a, LegalAssign p a

/-- The eligible pool for one slot category: the valid indices whose
eligibility set contains it. -/
def eligiblePool (p : List Candidate) (s : String) : List Nat :=
  (valid_idx p).filter (fun i => decide (s ∈ elig_map p i))

/-- The infeasibility condition of the specification: some slot category
has fewer eligible remaining candidates than its required fill count. -/
def Underfilled (p : List Candidate) : Prop :=
  ∃ sc ∈ SLOTS, (eligiblePool p sc.1).length < sc.2

instance (p : List Candidate) : Decidable (Underfilled p) := by
  unfold Underfilled
  infer_instance

/-- Modelled from the spec: the set of candidates "dropped at §4.2 for
empty eligibility", which §4.4 requires to be surfaced separately.  The
source computes no such output; this definition follows the spec's
words so the partition equation of the claim can be stated. -/
def excludedOf (p : List Candidate) : List (Nat × Candidate) :=
  (withIdx 0 p).filter (fun ic => decide (elig_map p ic.1 = []))

/-- The structural invariant of the enumeration `assignAux`: `a` walks
the slot instances in order, always picking an available, eligible
index. -/
def IsAssignment (elig : Nat → List String) :
    List String → List Nat → List (Nat × String) → Prop
  | [], _, a => a = []
  | s :: rest, avail, a =>
    ∃ i a2, a = (i, s) :: a2 ∧ i ∈ avail ∧ s ∈ elig i ∧
      IsAssignment elig rest (avail.erase i) a2


/-! ### Order-relation instances and concrete inputs used in witnesses -/

theorem optKeyLE_total (x y : Option ℚ) : optKeyLE x y ∨ optKeyLE y x := by
  cases x <;> cases y <;> simp [optKeyLE]
  exact le_total _ _

theorem optKeyLE_trans (x y z : Option ℚ) (h1 : optKeyLE x y)
    (h2 : optKeyLE y z) : optKeyLE x z := by
  cases x <;> cases y <;> cases z <;> simp [optKeyLE] at *
  exact h2.trans h1

instance : IsTotal StarterRow startersLE := ⟨by
  intro a b
  unfold startersLE
  rcases Nat.lt_trichotomy (slot_order a.slot) (slot_order b.slot) with h | h | h
  · exact Or.inl (Or.inl h)
  · rcases le_total b.pred_points a.pred_points with hp | hp
    · exact Or.inl (Or.inr ⟨h, hp⟩)
    · exact Or.inr (Or.inr ⟨h.symm, hp⟩)
  · exact Or.inr (Or.inl h)⟩

instance : IsTrans StarterRow startersLE := ⟨by
  intro a b c hab hbc
  unfold startersLE at *
  rcases hab with h1 | ⟨h1, hp1⟩
  · rcases hbc with h2 | ⟨h2, hp2⟩
    · exact Or.inl (h1.trans h2)
    · exact Or.inl (by rw [← h2]; exact h1)
  · rcases hbc with h2 | ⟨h2, hp2⟩
    · exact Or.inl (by rw [h1]; exact h2)
    · exact Or.inr ⟨h1.trans h2, hp2.trans hp1⟩⟩

instance : IsTotal (Nat × Candidate) benchLE :=
  ⟨fun a b => optKeyLE_total a.2.pred_points b.2.pred_points⟩

instance : IsTrans (Nat × Candidate) benchLE :=
  ⟨fun _ _ _ h1 h2 => optKeyLE_trans _ _ _ h1 h2⟩

/-- Build a fully-populated candidate record. -/
def mkC (idv nm ps : String) (pts unc : ℚ) : Candidate :=
  ⟨some idv, some nm, ps, some pts, some unc⟩

/-- A feasible nine-player pool: one candidate per base slot plus a third
RB contending for FLEX. -/
def exFeasible : List Candidate :=
  [mkC "1" "A" "QB" 20 2, mkC "2" "B" "RB" 15 1, mkC "3" "C" "RB" 12 4,
   mkC "4" "D" "RB" 9 1, mkC "5" "E" "WR" 14 2, mkC "6" "F" "WR" 11 3,
   mkC "7" "G" "TE" 8 2, mkC "8" "H" "D/ST" 6 5, mkC "9" "I" "K" 7 1]

/-- An infeasible pool: a lone quarterback cannot fill the other slots. -/
def ex1QB : List Candidate := [mkC "1" "A" "QB" 10 2]

/-- A candidate with an unrecognized position code. -/
def exUnknown : Candidate := mkC "10" "X" "XX" 5 1

/-- The feasible pool plus one unrecognized-position candidate. -/
def exMixed : List Candidate := exFeasible ++ [exUnknown]

/-- The feasible pool with the quarterback record stripped of both its
identifier and its name. -/
def exNoId : List Candidate :=
  ⟨none, none, "QB", some 20, some 2⟩ :: exFeasible.drop 1

/-- A legal assignment of `exFeasible` differing from the optimum: the
third and fourth RBs swap the RB and FLEX slots. -/
def aAlt : List (Nat × String) :=
  [(0, "QB"), (1, "RB"), (3, "RB"), (4, "WR"), (5, "WR"), (6, "TE"),
   (2, "FLEX"), (7, "D/ST"), (8, "K")]

/-- The computed result on `exFeasible`. -/
def exFeasibleRes : List StarterRow × List (Nat × Candidate) :=
  (optimize_lineup exFeasible).getD ([], [])

/-- Starters computed on `exFeasible`. -/
def exFeasibleStarters : List StarterRow := exFeasibleRes.1

/-- Bench computed on `exFeasible`. -/
def exFeasibleBench : List (Nat × Candidate) := exFeasibleRes.2

/-- The computed result on `exMixed`. -/
def exMixedRes : List StarterRow × List (Nat × Candidate) :=
  (optimize_lineup exMixed).getD ([], [])

/-- Starters computed on `exMixed`. -/
def exMixedStarters : List StarterRow := exMixedRes.1

/-- Bench computed on `exMixed`. -/
def exMixedBench : List (Nat × Candidate) := exMixedRes.2

/-- The first starter row of the `exFeasible` run. -/
def exStarter0 : StarterRow :=
  exFeasibleStarters.getD 0 ⟨0, none, none, "", 0, 0, ""⟩

set_option maxRecDepth 100000

/-! ### Indexing lemmas -/

theorem withIdx_getElem? (l : List Candidate) (n k : Nat) :
    (withIdx n l)[k]? = l[k]?.map (fun c => (n + k, c)) := by
  induction l generalizing n k with
  | nil => simp [withIdx]
  | cons c cs ih =>
    cases k with
    | zero => simp [withIdx]
    | succ k =>
      simp only [withIdx, List.getElem?_cons_succ, ih (n + 1) k]
      have h : n + 1 + k = n + (k + 1) := by omega
      rw [h]

theorem withIdx_length (l : List Candidate) (n : Nat) :
    (withIdx n l).length = l.length := by
  induction l generalizing n with
  | nil => rfl
  | cons c cs ih => simp [withIdx, ih]

theorem mem_withIdx_zero (p : List Candidate) (ic : Nat × Candidate) :
    ic ∈ withIdx 0 p ↔ p[ic.1]? = some ic.2 := by
  constructor
  · intro h
    obtain ⟨k, hk⟩ := List.mem_iff_getElem?.mp h
    rw [withIdx_getElem?] at hk
    cases hc : p[k]? with
    | none => rw [hc] at hk; simp at hk
    | some c =>
      rw [hc, Option.map_some'] at hk
      have hk2 : (0 + k, c) = ic := Option.some.inj hk
      rw [← hk2]
      simpa using hc
  · intro h
    refine List.mem_iff_getElem?.mpr ⟨ic.1, ?_⟩
    rw [withIdx_getElem?, h]
    simp

theorem nrows_length (p : List Candidate) : (nrows p).length = p.length := by
  simp [nrows, withIdx_length]

theorem nrows_getElem? (p : List Candidate) (i : Nat) :
    (nrows p)[i]? = p[i]?.map (normRow i) := by
  simp only [nrows, List.getElem?_map, withIdx_getElem?]
  cases p[i]? with
  | none => rfl
  | some c => simp

/-! ### Eligibility-map lemmas -/

theorem elig_map_eq_of_getElem? (p : List Candidate) (i : Nat) (c : Candidate)
    (h : p[i]? = some c) : elig_map p i = _eligible_slots (normPos c.pos) := by
  simp [elig_map, nrows_getElem?, h, normRow]

theorem elig_map_eq_nil_of_ge (p : List Candidate) (i : Nat)
    (h : p.length ≤ i) : elig_map p i = [] := by
  have : (nrows p)[i]? = none := by
    rw [List.getElem?_eq_none]
    rw [nrows_length]; exact h
  simp [elig_map, this]

theorem lt_length_of_elig_map_ne_nil (p : List Candidate) (i : Nat)
    (h : elig_map p i ≠ []) : i < p.length := by
  by_contra hc
  exact h (elig_map_eq_nil_of_ge p i (Nat.le_of_not_lt hc))

theorem mem_valid_idx (p : List Candidate) (i : Nat) :
    i ∈ valid_idx p ↔ i < p.length ∧ elig_map p i ≠ [] := by
  simp [valid_idx, List.mem_filter]

theorem mem_valid_idx_of_elig (p : List Candidate) (i : Nat)
    (h : elig_map p i ≠ []) : i ∈ valid_idx p :=
  (mem_valid_idx p i).mpr ⟨lt_length_of_elig_map_ne_nil p i h, h⟩

theorem valid_idx_nodup (p : List Candidate) : (valid_idx p).Nodup :=
  (List.nodup_range p.length).filter _

/-! ### pickBest lemmas -/

theorem foldlBest_mem {α : Type} (f : α → ℚ) (xs : List α) (x : α) :
    xs.foldl (fun b y => if f b < f y then y else b) x ∈ x :: xs := by
  induction xs generalizing x with
  | nil => simp
  | cons z zs ih =>
    simp only [List.foldl_cons]
    rcases List.mem_cons.mp (ih (if f x < f z then z else x)) with h | h
    · rw [h]
      by_cases hc : f x < f z <;> simp [hc]
    · simp [h]

theorem foldlBest_le {α : Type} (f : α → ℚ) (xs : List α) (x : α) :
    ∀ y ∈ x :: xs, f y ≤ f (xs.foldl (fun b y => if f b < f y then y else b) x) := by
  induction xs generalizing x with
  | nil =>
    intro y hy
    simp only [List.mem_cons, List.not_mem_nil, or_false] at hy
    subst hy
    simp
  | cons z zs ih =>
    intro y hy
    simp only [List.foldl_cons]
    have hx : f x ≤ f (if f x < f z then z else x) := by
      by_cases hc : f x < f z <;> simp [hc]
      exact le_of_lt hc
    have hz : f z ≤ f (if f x < f z then z else x) := by
      by_cases hc : f x < f z <;> simp [hc]
      exact le_of_not_lt hc
    have hhead : f (if f x < f z then z else x) ≤
        f (zs.foldl (fun b y => if f b < f y then y else b) (if f x < f z then z else x)) :=
      ih _ _ (List.mem_cons_self _ _)
    rcases List.mem_cons.mp hy with h | h
    · subst h; exact le_trans hx hhead
    · rcases List.mem_cons.mp h with h2 | h2
      · subst h2; exact le_trans hz hhead
      · exact ih _ y (List.mem_cons_of_mem _ h2)

theorem pickBest_eq_none {α : Type} (f : α → ℚ) (l : List α) :
    pickBest f l = none ↔ l = [] := by
  cases l <;> simp [pickBest]

theorem pickBest_mem {α : Type} (f : α → ℚ) (l : List α) (b : α)
    (h : pickBest f l = some b) : b ∈ l := by
  cases l with
  | nil => simp [pickBest] at h
  | cons x xs =>
    simp only [pickBest, Option.some.injEq] at h
    exact h ▸ foldlBest_mem f xs x

theorem pickBest_le {α : Type} (f : α → ℚ) (l : List α) (b : α)
    (h : pickBest f l = some b) : ∀ y ∈ l, f y ≤ f b := by
  cases l with
  | nil => simp
  | cons x xs =>
    simp only [pickBest, Option.some.injEq] at h
    exact h ▸ foldlBest_le f xs x

/-! ### Enumeration soundness and completeness -/

theorem mem_assignAux (elig : Nat → List String) (il : List String) :
    ∀ (avail : List Nat) (a : List (Nat × String)),
      a ∈ assignAux elig il avail ↔ IsAssignment elig il avail a := by
  induction il with
  | nil =>
    intro avail a
    simp [assignAux, IsAssignment]
  | cons s rest ih =>
    intro avail a
    simp only [assignAux, List.mem_flatMap, List.mem_map, List.mem_filter,
      decide_eq_true_eq]
    constructor
    · rintro ⟨i, ⟨hiav, hielig⟩, a2, ha2, rfl⟩
      exact ⟨i, a2, rfl, hiav, hielig, (ih _ a2).mp ha2⟩
    · rintro ⟨i, a2, rfl, hiav, hielig, h⟩
      exact ⟨i, ⟨hiav, hielig⟩, a2, (ih _ a2).mpr h, rfl⟩

theorem ia_map_snd (elig : Nat → List String) (il : List String) :
    ∀ (avail : List Nat) (a : List (Nat × String)),
      IsAssignment elig il avail a → a.map Prod.snd = il := by
  induction il with
  | nil =>
    intro avail a h
    have ha : a = [] := h
    subst ha; rfl
  | cons s rest ih =>
    intro avail a h
    obtain ⟨i, a2, rfl, hi, hs, h2⟩ := h
    simp [ih _ _ h2]

theorem ia_mem (elig : Nat → List String) (il : List String) :
    ∀ (avail : List Nat) (a : List (Nat × String)),
      IsAssignment elig il avail a →
      ∀ pr ∈ a, pr.1 ∈ avail ∧ pr.2 ∈ elig pr.1 := by
  induction il with
  | nil =>
    intro avail a h pr hpr
    have ha : a = [] := h
    subst ha; simp at hpr
  | cons s rest ih =>
    intro avail a h pr hpr
    obtain ⟨i, a2, rfl, hi, hs, h2⟩ := h
    rcases List.mem_cons.mp hpr with h3 | h3
    · subst h3; exact ⟨hi, hs⟩
    · obtain ⟨h4, h5⟩ := ih _ _ h2 pr h3
      exact ⟨List.mem_of_mem_erase h4, h5⟩

theorem ia_nodup (elig : Nat → List String) (il : List String) :
    ∀ (avail : List Nat) (a : List (Nat × String)),
      avail.Nodup → IsAssignment elig il avail a →
      (a.map Prod.fst).Nodup := by
  induction il with
  | nil =>
    intro avail a _ h
    have ha : a = [] := h
    subst ha; simp
  | cons s rest ih =>
    intro avail a hav h
    obtain ⟨i, a2, rfl, hi, hs, h2⟩ := h
    have hnd2 := ih _ _ (hav.erase i) h2
    simp only [List.map_cons, List.nodup_cons]
    refine ⟨?_, hnd2⟩
    intro hmem
    obtain ⟨pr, hpra, hpr1⟩ := List.mem_map.mp hmem
    have hin := (ia_mem elig rest _ _ h2 pr hpra).1
    rw [hpr1] at hin
    exact ((hav.mem_erase_iff).mp hin).1 rfl

theorem ia_length (elig : Nat → List String) (il : List String)
    (avail : List Nat) (a : List (Nat × String))
    (h : IsAssignment elig il avail a) : a.length = il.length := by
  have := ia_map_snd elig il avail a h
  calc a.length = (a.map Prod.snd).length := (List.length_map a Prod.snd).symm
  _ = il.length := by rw [this]

theorem exists_isAssignment (elig : Nat → List String) (il : List String) :
    ∀ (avail : List Nat) (a : List (Nat × String)),
      avail.Nodup → (a.map Prod.snd).Perm il → (a.map Prod.fst).Nodup →
      (∀ pr ∈ a, pr.1 ∈ avail ∧ pr.2 ∈ elig pr.1) →
      ∃ b, b.Perm a ∧ IsAssignment elig il avail b := by
  induction il with
  | nil =>
    intro avail a _ hperm _ _
    have ha : a.map Prod.snd = [] := hperm.eq_nil
    have ha2 : a = [] := List.map_eq_nil_iff.mp ha
    subst ha2
    exact ⟨[], List.Perm.refl [], rfl⟩
  | cons s rest ih =>
    intro avail a hav hperm hnd hmem
    have hs : s ∈ a.map Prod.snd := hperm.mem_iff.mpr (List.mem_cons_self s rest)
    obtain ⟨pr, hpra, hprs⟩ := List.mem_map.mp hs
    obtain ⟨a1, hpa⟩ : ∃ a1, a.Perm (pr :: a1) := ⟨_, List.perm_cons_erase hpra⟩
    have hndc : ((pr :: a1).map Prod.fst).Nodup := ((hpa.map Prod.fst).nodup_iff).mp hnd
    rw [List.map_cons, List.nodup_cons] at hndc
    have h2 : (a1.map Prod.snd).Perm rest := by
      have hm := hpa.map Prod.snd
      rw [List.map_cons, hprs] at hm
      exact (hm.symm.trans hperm).cons_inv
    have hsubs : ∀ q ∈ a1, q ∈ a := by
      intro q hq
      exact hpa.symm.subset (List.mem_cons_of_mem pr hq)
    have hmem1 : ∀ q ∈ a1, q.1 ∈ avail.erase pr.1 ∧ q.2 ∈ elig q.1 := by
      intro q hq
      have hqa : q ∈ a := hsubs q hq
      have hne : q.1 ≠ pr.1 := by
        intro he
        exact hndc.1 (he ▸ List.mem_map_of_mem Prod.fst hq)
      exact ⟨(List.mem_erase_of_ne hne).mpr (hmem q hqa).1, (hmem q hqa).2⟩
    obtain ⟨b1, hb1p, hb1⟩ := ih (avail.erase pr.1) a1 (hav.erase pr.1) h2 hndc.2 hmem1
    refine ⟨(pr.1, s) :: b1, ?_, ?_⟩
    · have hpr : (pr.1, s) = pr := by
        rw [← hprs]
      rw [hpr]
      exact (hb1p.cons pr).trans hpa.symm
    · exact ⟨pr.1, b1, rfl, (hmem pr hpra).1, hprs ▸ (hmem pr hpra).2, hb1⟩

/-! ### Slot-count bookkeeping -/

theorem slotInstances_count : ∀ sc ∈ SLOTS, slotInstances.count sc.1 = sc.2 := by
  decide

theorem mem_slotInstances_names : ∀ s ∈ slotInstances, s ∈ SLOTS.map Prod.fst := by
  decide

theorem eligible_slots_cases (q : String) :
    _eligible_slots q = ["QB"] ∨ _eligible_slots q = ["RB", "FLEX"] ∨
    _eligible_slots q = ["WR", "FLEX"] ∨ _eligible_slots q = ["TE", "FLEX"] ∨
    _eligible_slots q = ["D/ST"] ∨ _eligible_slots q = ["K"] ∨
    _eligible_slots q = [] := by
  unfold _eligible_slots
  split_ifs <;> simp

theorem eligible_slots_sub_names (q : String) :
    ∀ s ∈ _eligible_slots q, s ∈ SLOTS.map Prod.fst := by
  intro s hs
  rcases eligible_slots_cases q with h | h | h | h | h | h | h <;> rw [h] at hs
  · rw [List.mem_singleton] at hs; subst hs; decide
  · rcases List.mem_cons.mp hs with rfl | hs2
    · decide
    · rw [List.mem_singleton] at hs2; subst hs2; decide
  · rcases List.mem_cons.mp hs with rfl | hs2
    · decide
    · rw [List.mem_singleton] at hs2; subst hs2; decide
  · rcases List.mem_cons.mp hs with rfl | hs2
    · decide
    · rw [List.mem_singleton] at hs2; subst hs2; decide
  · rw [List.mem_singleton] at hs; subst hs; decide
  · rw [List.mem_singleton] at hs; subst hs; decide
  · exact absurd hs (List.not_mem_nil s)

theorem elig_map_sub_names (p : List Candidate) (i : Nat) :
    ∀ s ∈ elig_map p i, s ∈ SLOTS.map Prod.fst := by
  intro s hs
  unfold elig_map at hs
  cases hn : (nrows p)[i]? with
  | none => rw [hn] at hs; exact absurd hs (List.not_mem_nil s)
  | some r => rw [hn] at hs; exact eligible_slots_sub_names r.pos s hs

theorem filter_snd_length (a : List (Nat × String)) (s : String) :
    ((a.filter (fun pr => decide (pr.2 = s))).map Prod.fst).length
      = (a.map Prod.snd).count s := by
  induction a with
  | nil => rfl
  | cons pr t ih =>
    by_cases h : pr.2 = s
    · simp [List.filter_cons, h, List.count_cons, ih]
    · simp [List.filter_cons, h, List.count_cons, ih, Ne.symm h]

/-! ### Legal assignments versus the enumeration invariant -/

theorem legal_snd_perm (p : List Candidate) (a : List (Nat × String))
    (h : LegalAssign p a) : (a.map Prod.snd).Perm slotInstances := by
  rw [List.perm_iff_count]
  intro s
  by_cases hs : s ∈ SLOTS.map Prod.fst
  · obtain ⟨sc, hsc, rfl⟩ := List.mem_map.mp hs
    rw [h.1 sc hsc, slotInstances_count sc hsc]
  · have h1 : (a.map Prod.snd).count s = 0 := by
      rw [List.count_eq_zero]
      intro hmem
      obtain ⟨pr, hpra, rfl⟩ := List.mem_map.mp hmem
      exact hs (elig_map_sub_names p pr.1 pr.2 (h.2.2 pr hpra))
    have h2 : slotInstances.count s = 0 := by
      rw [List.count_eq_zero]
      intro hmem
      exact hs (mem_slotInstances_names s hmem)
    rw [h1, h2]

theorem legal_mem_valid (p : List Candidate) (a : List (Nat × String))
    (h : LegalAssign p a) : ∀ pr ∈ a, pr.1 ∈ valid_idx p := by
  intro pr hpr
  exact mem_valid_idx_of_elig p pr.1 (List.ne_nil_of_mem (h.2.2 pr hpr))

theorem ia_to_legal (p : List Candidate) (a : List (Nat × String))
    (h : IsAssignment (elig_map p) slotInstances (valid_idx p) a) :
    LegalAssign p a := by
  have hsnd := ia_map_snd _ _ _ _ h
  refine ⟨?_, ia_nodup _ _ _ _ (valid_idx_nodup p) h, ?_⟩
  · intro sc hsc
    rw [hsnd]
    exact slotInstances_count sc hsc
  · intro pr hpr
    exact (ia_mem _ _ _ _ h pr hpr).2

theorem legal_exists_ia (p : List Candidate) (a : List (Nat × String))
    (h : LegalAssign p a) :
    ∃ b, b.Perm a ∧ IsAssignment (elig_map p) slotInstances (valid_idx p) b :=
  exists_isAssignment _ _ _ _ (valid_idx_nodup p) (legal_snd_perm p a h) h.2.1
    (fun pr hpr => ⟨legal_mem_valid p a h pr hpr, h.2.2 pr hpr⟩)

/-! ### The solve step -/

theorem pickBest_isSome {α : Type} (f : α → ℚ) (l : List α) (h : l ≠ []) :
    (pickBest f l).isSome := by
  cases l with
  | nil => exact absurd rfl h
  | cons x xs => simp [pickBest]

theorem solveAssign_ia (p : List Candidate) (a : List (Nat × String))
    (h : solveAssign p = some a) :
    IsAssignment (elig_map p) slotInstances (valid_idx p) a :=
  (mem_assignAux _ _ _ _).mp (pickBest_mem _ _ _ h)

theorem solveAssign_isSome_iff (p : List Candidate) :
    (solveAssign p).isSome ↔ Feasible p := by
  constructor
  · intro h
    cases hs : solveAssign p with
    | none => rw [hs] at h; simp at h
    | some a => exact ⟨a, ia_to_legal p a (solveAssign_ia p a hs)⟩
  · rintro ⟨a, ha⟩
    obtain ⟨b, _, hb⟩ := legal_exists_ia p a ha
    have hne : assignAux (elig_map p) slotInstances (valid_idx p) ≠ [] :=
      List.ne_nil_of_mem ((mem_assignAux _ _ _ _).mpr hb)
    exact pickBest_isSome _ _ hne

theorem optimize_isSome_iff (p : List Candidate) :
    (optimize_lineup p).isSome ↔ Feasible p := by
  rw [← solveAssign_isSome_iff]
  cases hs : solveAssign p <;> simp [optimize_lineup, hs]

theorem optimize_eq_none_iff (p : List Candidate) :
    optimize_lineup p = none ↔ ¬ Feasible p := by
  rw [← optimize_isSome_iff]
  cases optimize_lineup p <;> simp

theorem optimize_some_elim (p : List Candidate) (st : List StarterRow)
    (b : List (Nat × Candidate)) (h : optimize_lineup p = some (st, b)) :
    ∃ a, solveAssign p = some a ∧
      IsAssignment (elig_map p) slotInstances (valid_idx p) a ∧
      st = List.insertionSort startersLE (a.map (mkStarter p)) ∧
      b = List.insertionSort benchLE
        ((withIdx 0 p).filter (fun ic => decide (ic.1 ∉ a.map Prod.fst))) := by
  cases hs : solveAssign p with
  | none => simp [optimize_lineup, hs] at h
  | some a =>
    simp only [optimize_lineup, hs, Option.some.injEq, Prod.mk.injEq] at h
    exact ⟨a, rfl, solveAssign_ia p a hs, h.1.symm, h.2.symm⟩

/-! ### Infeasibility -/

theorem underfilled_not_feasible (p : List Candidate) (h : Underfilled p) :
    ¬ Feasible p := by
  rintro ⟨a, ha⟩
  obtain ⟨sc, hsc, hlt⟩ := h
  have hlen : ((a.filter (fun pr => decide (pr.2 = sc.1))).map Prod.fst).length = sc.2 := by
    rw [filter_snd_length, ha.1 sc hsc]
  have hnd : ((a.filter (fun pr => decide (pr.2 = sc.1))).map Prod.fst).Nodup :=
    ha.2.1.sublist (List.Sublist.map Prod.fst (List.filter_sublist a))
  have hsub : ((a.filter (fun pr => decide (pr.2 = sc.1))).map Prod.fst)
      ⊆ eligiblePool p sc.1 := by
    intro x hx
    obtain ⟨pr, hprf, rfl⟩ := List.mem_map.mp hx
    have hprm : pr ∈ a := List.mem_of_mem_filter hprf
    have hpr2 : pr.2 = sc.1 := of_decide_eq_true (List.mem_filter.mp hprf).2
    unfold eligiblePool
    rw [List.mem_filter]
    refine ⟨legal_mem_valid p a ha pr hprm, ?_⟩
    rw [decide_eq_true_eq]
    exact hpr2 ▸ ha.2.2 pr hprm
  have hle := (hnd.subperm hsub).length_le
  omega

/-! ### Objective bookkeeping -/

theorem objective_perm (p : List Candidate) {a b : List (Nat × String)}
    (h : a.Perm b) : objective p a = objective p b :=
  (h.map _).sum_eq

theorem nrows_idx (p : List Candidate) (i : Nat) (r : NRow)
    (h : (nrows p)[i]? = some r) : r.idx = i := by
  rw [nrows_getElem?] at h
  cases hc : p[i]? with
  | none => rw [hc] at h; simp at h
  | some c =>
    rw [hc, Option.map_some'] at h
    have h2 := Option.some.inj h
    rw [← h2]
    rfl

theorem nrows_isSome_of_lt (p : List Candidate) (i : Nat) (h : i < p.length) :
    ∃ r, (nrows p)[i]? = some r := by
  have : i < (nrows p).length := by rw [nrows_length]; exact h
  exact ⟨(nrows p)[i], List.getElem?_eq_getElem this⟩

theorem mkStarter_slot (p : List Candidate) (pr : Nat × String) :
    (mkStarter p pr).slot = pr.2 := by
  cases hn : (nrows p)[pr.1]? <;> simp [mkStarter, hn]

theorem mkStarter_idx (p : List Candidate) (pr : Nat × String) :
    (mkStarter p pr).idx = pr.1 := by
  cases hn : (nrows p)[pr.1]? with
  | none => simp [mkStarter, hn]
  | some r => simp [mkStarter, hn, nrows_idx p pr.1 r hn]

theorem mkStarter_eq_of_getElem? (p : List Candidate) (pr : Nat × String)
    (r : NRow) (h : (nrows p)[pr.1]? = some r) :
    mkStarter p pr = ⟨r.idx, r.id, r.name, r.pos, r.pred_points, r.uncert, pr.2⟩ := by
  simp [mkStarter, h]

theorem adj_eq_of_getElem? (p : List Candidate) (i : Nat) (r : NRow)
    (h : (nrows p)[i]? = some r) : adj p i = r.pred_points - 0.15 * r.uncert := by
  simp [adj, h]

theorem starters_sum (p : List Candidate) (a : List (Nat × String))
    (hvalid : ∀ pr ∈ a, pr.1 < p.length) :
    ((a.map (mkStarter p)).map (fun r => r.pred_points - 0.15 * r.uncert)).sum
      = objective p a := by
  rw [List.map_map]
  unfold objective
  congr 1
  apply List.map_congr_left
  intro pr hpr
  obtain ⟨r, hr⟩ := nrows_isSome_of_lt p pr.1 (hvalid pr hpr)
  rw [Function.comp_apply, mkStarter_eq_of_getElem? p pr r hr,
    adj_eq_of_getElem? p pr.1 r hr]

/-! ### Order relations used by the result assembler -/

/-! ### Partition counting -/

theorem withIdx_map_fst (l : List Candidate) (n : Nat) :
    (withIdx n l).map Prod.fst = List.range' n l.length := by
  induction l generalizing n with
  | nil => rfl
  | cons c cs ih =>
    simp only [withIdx, List.map_cons, ih, List.length_cons]
    rfl

theorem filter_not_length {α : Type} (q : α → Bool) (l : List α) :
    (l.filter q).length + (l.filter (fun x => ! q x)).length = l.length := by
  simpa using (List.filter_append_perm q l).length_eq

theorem withIdx_filter_mem_length (p : List Candidate) (fs : List Nat)
    (hnd : fs.Nodup) (hbound : ∀ i ∈ fs, i < p.length) :
    ((withIdx 0 p).filter (fun ic => decide (ic.1 ∈ fs))).length = fs.length := by
  have h1 : ((withIdx 0 p).filter (fun ic => decide (ic.1 ∈ fs))).length
      = (withIdx 0 p).countP (fun ic => decide (ic.1 ∈ fs)) := by
    rw [List.countP_eq_length_filter]
  have h2 : (withIdx 0 p).countP (fun ic => decide (ic.1 ∈ fs))
      = ((withIdx 0 p).map Prod.fst).countP (fun i => decide (i ∈ fs)) := by
    rw [List.countP_map]
    rfl
  rw [h1, h2, withIdx_map_fst, ← List.range_eq_range', List.countP_eq_length_filter]
  have hperm : ((List.range p.length).filter (fun i => decide (i ∈ fs))).Perm fs := by
    rw [List.perm_ext_iff_of_nodup ((List.nodup_range p.length).filter _) hnd]
    intro i
    rw [List.mem_filter]
    simp only [List.mem_range, decide_eq_true_eq]
    constructor
    · rintro ⟨_, hm⟩; exact hm
    · intro hm; exact ⟨hbound i hm, hm⟩
  exact hperm.length_eq

theorem optimize_partition (p : List Candidate) (st : List StarterRow)
    (b : List (Nat × Candidate)) (h : optimize_lineup p = some (st, b)) :
    st.length + b.length = p.length := by
  obtain ⟨a, _, hia, hst, hb⟩ := optimize_some_elim p st b h
  have hstl : st.length = a.length := by
    rw [hst, (List.perm_insertionSort _ _).length_eq, List.length_map]
  have hfs_nd : (a.map Prod.fst).Nodup := ia_nodup _ _ _ _ (valid_idx_nodup p) hia
  have hfs_bound : ∀ i ∈ a.map Prod.fst, i < p.length := by
    intro i hi
    obtain ⟨pr, hpr, rfl⟩ := List.mem_map.mp hi
    have hv := (ia_mem _ _ _ _ hia pr hpr).1
    exact ((mem_valid_idx p pr.1).mp hv).1
  have hmemlen := withIdx_filter_mem_length p (a.map Prod.fst) hfs_nd hfs_bound
  have hbl : b.length
      = ((withIdx 0 p).filter (fun ic => decide (ic.1 ∉ a.map Prod.fst))).length := by
    rw [hb, (List.perm_insertionSort _ _).length_eq]
  have hpart := filter_not_length (fun ic => decide (ic.1 ∈ a.map Prod.fst)) (withIdx 0 p)
  have heq : (withIdx 0 p).filter (fun ic => ! decide (ic.1 ∈ a.map Prod.fst))
      = (withIdx 0 p).filter (fun ic => decide (ic.1 ∉ a.map Prod.fst)) := by
    apply List.filter_congr
    intro ic _
    rw [decide_not]
  rw [heq, hmemlen, withIdx_length, List.length_map] at hpart
  rw [hstl, hbl]
  omega

/-! ### Shared elimination helpers for the claims -/

theorem mem_starters_elim (p : List Candidate) (a : List (Nat × String))
    (st : List StarterRow)
    (hst : st = List.insertionSort startersLE (a.map (mkStarter p)))
    (r : StarterRow) (hr : r ∈ st) : ∃ pr ∈ a, r = mkStarter p pr := by
  rw [hst] at hr
  have hr2 : r ∈ a.map (mkStarter p) :=
    ((List.perm_insertionSort startersLE _).mem_iff).mp hr
  obtain ⟨pr, hpr, hpr2⟩ := List.mem_map.mp hr2
  exact ⟨pr, hpr, hpr2.symm⟩

theorem ia_fst_lt (p : List Candidate) (a : List (Nat × String))
    (hia : IsAssignment (elig_map p) slotInstances (valid_idx p) a) :
    ∀ pr ∈ a, pr.1 < p.length := by
  intro pr hpr
  exact ((mem_valid_idx p pr.1).mp (ia_mem _ _ _ _ hia pr hpr).1).1

/-- C1: for every feasible candidate pool, the lineup returned by
`optimize_lineup` maximizes the total risk-adjusted objective
`pred_points - 0.15 * uncert` over its filled slots: no legal
assignment (exact slot counts, at most one slot per candidate,
eligibility respected) achieves a strictly greater total. -/
theorem optimize_lineup_optimal (p : List Candidate) (st : List StarterRow)
    (b : List (Nat × Candidate)) (h : optimize_lineup p = some (st, b))
    (a : List (Nat × String)) (ha : LegalAssign p a) :
    objective p a ≤ (st.map (fun r => r.pred_points - 0.15 * r.uncert)).sum := by
  obtain ⟨ch, hsolve, hia, hst, _⟩ := optimize_some_elim p st b h
  have hsum : (st.map (fun r => r.pred_points - 0.15 * r.uncert)).sum
      = objective p ch := by
    rw [hst]
    have hperm := (List.perm_insertionSort startersLE (ch.map (mkStarter p))).map
      (fun r => r.pred_points - 0.15 * r.uncert)
    rw [hperm.sum_eq]
    exact starters_sum p ch (ia_fst_lt p ch hia)
  rw [hsum]
  obtain ⟨a2, ha2p, ha2⟩ := legal_exists_ia p a ha
  have hmem2 : a2 ∈ assignAux (elig_map p) slotInstances (valid_idx p) :=
    (mem_assignAux _ _ _ _).mpr ha2
  have hle := pickBest_le (objective p) _ ch hsolve a2 hmem2
  calc objective p a = objective p a2 := (objective_perm p ha2p).symm
  _ ≤ objective p ch := hle

/-- C1 witness: on the nine-player pool, the alternative legal
assignment `aAlt` scores no better than the returned starters. -/
theorem optimize_lineup_optimal_witness :
    LegalAssign exFeasible aAlt ∧
    objective exFeasible aAlt ≤
      (exFeasibleStarters.map (fun r => r.pred_points - 0.15 * r.uncert)).sum :=
  ⟨by decide,
   optimize_lineup_optimal exFeasible exFeasibleStarters exFeasibleBench
     (by with_unfolding_all rfl) aAlt (by decide)⟩

/-- C2 counterexample: on a pool whose K slot (among others) has no
eligible candidate, `optimize_lineup` yields no lineup and no error
value at all — the source raises no `InfeasibleError` (no such class
exists in the repository) and reports no under-filled slot category. -/
theorem infeasible_run_counterexample : optimize_lineup ex1QB = none := by
  rfl

/-- C2 amended: when some slot category has fewer eligible remaining
candidates than its required fill count, `optimize_lineup` produces no
lineup at all (`none`: the unchecked solve yields no assignment and
result extraction fails), rather than an `InfeasibleError` identifying
the under-filled slot category; it never returns an under-filled
lineup. -/
theorem infeasible_run_returns_none (p : List Candidate)
    (h : Underfilled p) : optimize_lineup p = none :=
  (optimize_eq_none_iff p).mpr (underfilled_not_feasible p h)

/-- C2 witness: the lone-quarterback pool is under-filled and the
engine returns `none` on it. -/
theorem infeasible_run_returns_none_witness :
    Underfilled ex1QB ∧ optimize_lineup ex1QB = none :=
  ⟨by decide, infeasible_run_returns_none ex1QB (by decide)⟩

/-- C3 counterexample: on a pool with one unrecognized-position
candidate, the run succeeds, that candidate is folded into the bench
output, and the spec's partition equation
`|starters| + |bench| + |excluded| = |input|` fails (the excluded
candidate is counted twice, once in `excluded` and once in bench). -/
theorem excluded_folded_into_bench_counterexample :
    (optimize_lineup exMixed).isSome = true ∧
    (9, exUnknown) ∈ exMixedBench ∧
    exMixedStarters.length + exMixedBench.length + (excludedOf exMixed).length
      ≠ exMixed.length :=
  ⟨by with_unfolding_all rfl,
   of_decide_eq_true (by with_unfolding_all rfl),
   of_decide_eq_true (by with_unfolding_all rfl)⟩

/-- C3 amended: starters and bench alone partition the entire validated
input (`|starters| + |bench| = |input|`, every input row lands in
starters or in bench); candidates excluded for empty eligibility are
not surfaced separately — they are folded into the bench output. -/
theorem partition_without_excluded (p : List Candidate)
    (st : List StarterRow) (b : List (Nat × Candidate))
    (h : optimize_lineup p = some (st, b)) :
    st.length + b.length = p.length ∧
    (∀ ic ∈ withIdx 0 p, elig_map p ic.1 = [] → ic ∈ b) ∧
    (∀ ic ∈ withIdx 0 p, (∃ r ∈ st, r.idx = ic.1) ∨ ic ∈ b) := by
  obtain ⟨a, _, hia, hst, hb⟩ := optimize_some_elim p st b h
  have hmemb : ∀ ic ∈ withIdx 0 p, ic.1 ∉ a.map Prod.fst → ic ∈ b := by
    intro ic hic hnotin
    rw [hb]
    refine ((List.perm_insertionSort benchLE _).mem_iff).mpr ?_
    rw [List.mem_filter]
    exact ⟨hic, decide_eq_true hnotin⟩
  refine ⟨optimize_partition p st b h, ?_, ?_⟩
  · intro ic hic helig
    refine hmemb ic hic ?_
    intro hin
    obtain ⟨pr, hpr, hpr1⟩ := List.mem_map.mp hin
    have hv := (ia_mem _ _ _ _ hia pr hpr).1
    have hne := ((mem_valid_idx p pr.1).mp hv).2
    rw [hpr1, helig] at hne
    exact hne rfl
  · intro ic hic
    by_cases hin : ic.1 ∈ a.map Prod.fst
    · left
      obtain ⟨pr, hpr, hpr1⟩ := List.mem_map.mp hin
      refine ⟨mkStarter p pr, ?_, by rw [mkStarter_idx, hpr1]⟩
      rw [hst]
      exact ((List.perm_insertionSort startersLE _).mem_iff).mpr
        (List.mem_map_of_mem (mkStarter p) hpr)
    · exact Or.inr (hmemb ic hic hin)

/-- C3 witness: the mixed pool satisfies the amended partition
equation without an excluded term. -/
theorem partition_without_excluded_witness :
    exMixedStarters.length + exMixedBench.length = exMixed.length :=
  (partition_without_excluded exMixed exMixedStarters exMixedBench
    (by with_unfolding_all rfl)).1

/-- C4 counterexample: a batch containing a record with neither an
identifier nor a name is processed normally — `optimize_lineup`
returns a lineup for it, with no `ValidationError` (no such class
exists in the repository) and no batch failure. -/
theorem missing_id_name_counterexample :
    (∃ r ∈ exNoId, r.id = none ∧ r.name = none) ∧
    (optimize_lineup exNoId).isSome = true :=
  ⟨by decide, by with_unfolding_all rfl⟩

/-- C4 amended: no identifier or name validation exists: for a batch
containing a record lacking both, the run does not fail with a
`ValidationError`; it succeeds exactly when the pool is feasible,
irrespective of identification fields. -/
theorem no_id_name_validation (p : List Candidate)
    (_h : ∃ r ∈ p, r.id = none ∧ r.name = none) :
    ((optimize_lineup p).isSome ↔ Feasible p) :=
  optimize_isSome_iff p

/-- C4 witness: the pool with an id-and-name-less quarterback record. -/
theorem no_id_name_validation_witness :
    (∃ r ∈ exNoId, r.id = none ∧ r.name = none) ∧
    ((optimize_lineup exNoId).isSome ↔ Feasible exNoId) :=
  ⟨by decide, no_id_name_validation exNoId (by decide)⟩

/-- C5: on every feasible input, the returned starters fill each slot
category with exactly its configured count of candidates — never more,
never fewer. -/
theorem exact_slot_fill (p : List Candidate) (st : List StarterRow)
    (b : List (Nat × Candidate)) (h : optimize_lineup p = some (st, b))
    (s : String) (c : Nat) (hm : (s, c) ∈ SLOTS) :
    (st.filter (fun r => decide (r.slot = s))).length = c := by
  obtain ⟨a, _, hia, hst, _⟩ := optimize_some_elim p st b h
  have hp : (st.filter (fun r => decide (r.slot = s))).Perm
      ((a.map (mkStarter p)).filter (fun r => decide (r.slot = s))) := by
    rw [hst]
    exact (List.perm_insertionSort startersLE _).filter _
  rw [hp.length_eq, ← List.countP_eq_length_filter, List.countP_map,
    List.countP_eq_length_filter]
  have hfc : a.filter ((fun r => decide (r.slot = s)) ∘ mkStarter p)
      = a.filter (fun pr => decide (pr.2 = s)) := by
    apply List.filter_congr
    intro pr _
    simp [Function.comp_apply, mkStarter_slot]
  rw [hfc]
  have hc := filter_snd_length a s
  rw [List.length_map] at hc
  rw [hc, ia_map_snd _ _ _ _ hia]
  exact slotInstances_count (s, c) hm

/-- C5 witness: the QB slot of the nine-player run holds exactly one
starter. -/
theorem exact_slot_fill_witness :
    (("QB", 1) ∈ SLOTS) ∧
    (exFeasibleStarters.filter (fun r => decide (r.slot = "QB"))).length = 1 :=
  ⟨by decide,
   exact_slot_fill exFeasible exFeasibleStarters exFeasibleBench
     (by with_unfolding_all rfl) "QB" 1 (by decide)⟩

/-- C6: every starter occupies a slot drawn from the eligibility set of
its (normalized) position; the eligibility relation is the fixed table
QB→{QB}, RB→{RB,FLEX}, WR→{WR,FLEX}, TE→{TE,FLEX}, K→{K},
D/ST→{D/ST}, with every position outside the recognized codes (the six
canonical ones plus the DST/DEF synonyms collapsed by normalization)
mapped to the empty set; and a candidate whose normalized position has
empty eligibility never appears among the starters. -/
theorem eligibility_respected (p : List Candidate) (st : List StarterRow)
    (b : List (Nat × Candidate)) (h : optimize_lineup p = some (st, b)) :
    (∀ r ∈ st, r.slot ∈ _eligible_slots r.pos) ∧
    _eligible_slots "QB" = ["QB"] ∧ _eligible_slots "RB" = ["RB", "FLEX"] ∧
    _eligible_slots "WR" = ["WR", "FLEX"] ∧ _eligible_slots "TE" = ["TE", "FLEX"] ∧
    _eligible_slots "K" = ["K"] ∧ _eligible_slots "D/ST" = ["D/ST"] ∧
    (∀ q : String,
      q ∉ (["QB", "RB", "WR", "TE", "K", "D/ST", "DST", "DEF"] : List String) →
      _eligible_slots q = []) ∧
    (∀ ic ∈ withIdx 0 p, _eligible_slots (normPos ic.2.pos) = [] →
      ∀ r ∈ st, r.idx ≠ ic.1) := by
  obtain ⟨a, _, hia, hst, _⟩ := optimize_some_elim p st b h
  refine ⟨?_, by decide, by decide, by decide, by decide, by decide, by decide,
    ?_, ?_⟩
  · intro r hr
    obtain ⟨pr, hpr, rfl⟩ := mem_starters_elim p a st hst r hr
    obtain ⟨row, hrow⟩ := nrows_isSome_of_lt p pr.1 (ia_fst_lt p a hia pr hpr)
    have helig := (ia_mem _ _ _ _ hia pr hpr).2
    unfold elig_map at helig
    rw [hrow] at helig
    rw [mkStarter_eq_of_getElem? p pr row hrow]
    exact helig
  · intro q hq
    unfold _eligible_slots
    split_ifs with h1 h2 h3 h4 h5 h6
    · subst h1; exact absurd (by decide) hq
    · subst h2; exact absurd (by decide) hq
    · subst h3; exact absurd (by decide) hq
    · subst h4; exact absurd (by decide) hq
    · rcases h5 with rfl | rfl | rfl <;> exact absurd (by decide) hq
    · subst h6; exact absurd (by decide) hq
    · rfl
  · intro ic hic helig r hr hne
    obtain ⟨pr, hpr, rfl⟩ := mem_starters_elim p a st hst r hr
    rw [mkStarter_idx] at hne
    have hv := (ia_mem _ _ _ _ hia pr hpr).1
    have hnon := ((mem_valid_idx p pr.1).mp hv).2
    have hgc : p[ic.1]? = some ic.2 := (mem_withIdx_zero p ic).mp hic
    have := elig_map_eq_of_getElem? p ic.1 ic.2 hgc
    rw [← hne] at this
    rw [this, helig] at hnon
    exact hnon rfl

/-- C6 witness: the first starter of the nine-player run sits in a slot
its position is eligible for. -/
theorem eligibility_respected_witness :
    exStarter0.slot ∈ _eligible_slots exStarter0.pos :=
  (eligibility_respected exFeasible exFeasibleStarters exFeasibleBench
    (by with_unfolding_all rfl)).1 exStarter0
    (of_decide_eq_true (by with_unfolding_all rfl))

/-- C7: no candidate is assigned to more than one slot in the returned
starters, and no candidate appears both among the starters and on the
bench. -/
theorem no_double_booking (p : List Candidate) (st : List StarterRow)
    (b : List (Nat × Candidate)) (h : optimize_lineup p = some (st, b)) :
    (st.map (fun r => r.idx)).Nodup ∧
    ∀ r ∈ st, ∀ e ∈ b, r.idx ≠ e.1 := by
  obtain ⟨a, _, hia, hst, hb⟩ := optimize_some_elim p st b h
  have hstm : (st.map (fun r => r.idx)).Perm (a.map Prod.fst) := by
    have hp1 : st.Perm (a.map (mkStarter p)) := by
      rw [hst]
      exact List.perm_insertionSort _ _
    have hp2 := hp1.map (fun r => r.idx)
    have heq : (a.map (mkStarter p)).map (fun r => r.idx) = a.map Prod.fst := by
      rw [List.map_map]
      apply List.map_congr_left
      intro pr _
      exact mkStarter_idx p pr
    rw [heq] at hp2
    exact hp2
  constructor
  · exact hstm.nodup_iff.mpr (ia_nodup _ _ _ _ (valid_idx_nodup p) hia)
  · intro r hr e he hne
    obtain ⟨pr, hpr, rfl⟩ := mem_starters_elim p a st hst r hr
    rw [hb] at he
    have he2 := ((List.perm_insertionSort benchLE _).mem_iff).mp he
    rw [List.mem_filter] at he2
    have hnotin : e.1 ∉ a.map Prod.fst := of_decide_eq_true he2.2
    apply hnotin
    rw [mkStarter_idx] at hne
    exact hne ▸ List.mem_map_of_mem Prod.fst hpr

/-- C7 witness: index sets of the nine-player run's starters are
pairwise distinct. -/
theorem no_double_booking_witness :
    (exFeasibleStarters.map (fun r => r.idx)).Nodup :=
  (no_double_booking exFeasible exFeasibleStarters exFeasibleBench
    (by with_unfolding_all rfl)).1

/-- C8: `optimize_lineup` is deterministic — the engine is a pure
function of its input (the modelled solve is an exact deterministic
maximization, and the source invokes CBC, a deterministic solver, with
no randomized tie-breaking), so identical inputs produce identical
assignments. -/
theorem optimize_lineup_deterministic (p q : List Candidate) (h : p = q) :
    optimize_lineup p = optimize_lineup q := by
  rw [h]

/-- C8 witness: two runs on the nine-player pool agree. -/
theorem optimize_lineup_deterministic_witness :
    optimize_lineup exFeasible = optimize_lineup exFeasible :=
  optimize_lineup_deterministic exFeasible exFeasible rfl

/-- C9: the starters are returned sorted by the fixed slot presentation
order (QB, RB, RB, WR, WR, TE, FLEX, D/ST, K), ties within a repeated
slot label broken by descending `pred_points`; the bench is returned
sorted by descending raw `pred_points` (missing scores last, per
pandas), with no slot annotation in its row type. -/
theorem result_ordering (p : List Candidate) (st : List StarterRow)
    (b : List (Nat × Candidate)) (h : optimize_lineup p = some (st, b)) :
    List.Sorted startersLE st ∧ List.Sorted benchLE b ∧
    order = ["QB", "RB", "RB", "WR", "WR", "TE", "FLEX", "D/ST", "K"] := by
  obtain ⟨a, _, _, hst, hb⟩ := optimize_some_elim p st b h
  refine ⟨?_, ?_, rfl⟩
  · rw [hst]
    exact List.sorted_insertionSort startersLE _
  · rw [hb]
    exact List.sorted_insertionSort benchLE _

/-- C9 witness: the nine-player run's starters come out in presentation
order. -/
theorem result_ordering_witness : List.Sorted startersLE exFeasibleStarters :=
  (result_ordering exFeasible exFeasibleStarters exFeasibleBench
    (by with_unfolding_all rfl)).1

/-- C10: normalization coerces every candidate's `pred_points` to a
rational with missing-or-non-numeric values (modelled `none`) becoming
0, and `uncert` likewise with missing values becoming 3; the coercion
is total — a silent default, never an error — and each starter row
carries exactly the coerced values of its input record. -/
theorem normalization_defaults (p : List Candidate) (st : List StarterRow)
    (b : List (Nat × Candidate)) (h : optimize_lineup p = some (st, b)) :
    (∀ i c, p[i]? = some c → (nrows p)[i]? = some (normRow i c) ∧
      (normRow i c).pred_points = c.pred_points.getD 0 ∧
      (normRow i c).uncert = c.uncert.getD 3) ∧
    (∀ r ∈ st, ∃ c, p[r.idx]? = some c ∧
      r.pred_points = c.pred_points.getD 0 ∧ r.uncert = c.uncert.getD 3) := by
  obtain ⟨a, _, hia, hst, _⟩ := optimize_some_elim p st b h
  constructor
  · intro i c hc
    refine ⟨?_, rfl, rfl⟩
    rw [nrows_getElem?, hc, Option.map_some']
  · intro r hr
    obtain ⟨pr, hpr, rfl⟩ := mem_starters_elim p a st hst r hr
    have hlt := ia_fst_lt p a hia pr hpr
    have hc : p[pr.1]? = some p[pr.1] := List.getElem?_eq_getElem hlt
    have hn : (nrows p)[pr.1]? = some (normRow pr.1 p[pr.1]) := by
      rw [nrows_getElem?, hc, Option.map_some']
    refine ⟨p[pr.1], ?_, ?_, ?_⟩
    · rw [mkStarter_idx]
      exact hc
    · rw [mkStarter_eq_of_getElem? p pr _ hn]
      rfl
    · rw [mkStarter_eq_of_getElem? p pr _ hn]
      rfl

/-- C10 witness: the first starter of the nine-player run carries the
coerced scores of its input record. -/
theorem normalization_defaults_witness :
    ∃ c, exFeasible[exStarter0.idx]? = some c ∧
      exStarter0.pred_points = c.pred_points.getD 0 ∧
      exStarter0.uncert = c.uncert.getD 3 :=
  (normalization_defaults exFeasible exFeasibleStarters exFeasibleBench
    (by with_unfolding_all rfl)).2 exStarter0
    (of_decide_eq_true (by with_unfolding_all rfl))
